import Mathlib

/-!
Verification development for the astro-algos library (Rust).

The numerical kernel of the library operates on IEEE-754 doubles (`f64`).
In this development the `f64` values flowing through the trigonometric /
planetary code are modelled as real numbers (`ℝ`), and the values flowing
through the exact calendar arithmetic (`Date`, `JD`, Easter) are modelled
as rationals (`ℚ`); machine integers (`i32`, `u8`) are modelled as `ℤ` / `ℕ`
with the relevant `as`-casts made explicit.  A Rust `assert!` failure
(a fatal contract violation) is modelled by returning `none`.
-/

namespace AstroAlgos

/-! ## Angle (src/angle.rs)

`Angle` is a newtype over an `f64` holding radians (angle.rs line 10).
-/

/-- The core angle type: a single radian value (angle.rs, `pub struct Angle(f64)`). -/
structure Angle where
  radians : ℝ

/-- `Angle::from_degrees` (angle.rs 14-16): `f64::to_radians` multiplies by π/180. -/
noncomputable def Angle.from_degrees (d : ℝ) : Angle :=
  ⟨d * (Real.pi / 180)⟩

/-- `Angle::from_radians` (angle.rs 19-21). -/
def Angle.from_radians (r : ℝ) : Angle :=
  ⟨r⟩

/-- `Angle::as_radians` (angle.rs 34-36). -/
def Angle.as_radians (a : Angle) : ℝ :=
  a.radians

/-- `Angle::as_degrees` (angle.rs 39-41): `f64::to_degrees` multiplies by 180/π. -/
noncomputable def Angle.as_degrees (a : Angle) : ℝ :=
  a.radians * (180 / Real.pi)

/-- First loop of `Angle::wrap` (angle.rs 104-106): `while self > *high_limit { self -= range }`.
The conjunct `0 < range` is a totalisation guard; at the call site the preceding
`assert!(high_limit > low_limit)` guarantees it, so the guard never alters behaviour. -/
noncomputable def wrapLoopDown (x high range : ℝ) : ℝ :=
  if 0 < range ∧ high < x then wrapLoopDown (x - range) high range else x
termination_by Nat.ceil ((x - high) / range)
decreasing_by
  rename_i h
  obtain ⟨hr, hx⟩ := h
  have ht : 0 < (x - high) / range := div_pos (by linarith) hr
  have hstep : (x - range - high) / range = (x - high) / range - 1 := by
    field_simp
    ring
  rw [hstep]
  rcases le_or_lt ((x - high) / range) 1 with h1 | h1
  · have hz : ⌈(x - high) / range - 1⌉₊ = 0 := Nat.ceil_eq_zero.mpr (by linarith)
    rw [hz]
    exact Nat.ceil_pos.mpr ht
  · have h0 : (0 : ℝ) ≤ (x - high) / range - 1 := by linarith
    have hc := Nat.ceil_add_one h0
    have heq : (x - high) / range - 1 + 1 = (x - high) / range := by ring
    rw [heq] at hc
    omega

/-- Second loop of `Angle::wrap` (angle.rs 108-110): `while self < *low_limit { self += range }`.
Same totalisation guard as in `wrapLoopDown`. -/
noncomputable def wrapLoopUp (x low range : ℝ) : ℝ :=
  if 0 < range ∧ x < low then wrapLoopUp (x + range) low range else x
termination_by Nat.ceil ((low - x) / range)
decreasing_by
  rename_i h
  obtain ⟨hr, hx⟩ := h
  have ht : 0 < (low - x) / range := div_pos (by linarith) hr
  have hstep : (low - (x + range)) / range = (low - x) / range - 1 := by
    field_simp
    ring
  rw [hstep]
  rcases le_or_lt ((low - x) / range) 1 with h1 | h1
  · have hz : ⌈(low - x) / range - 1⌉₊ = 0 := Nat.ceil_eq_zero.mpr (by linarith)
    rw [hz]
    exact Nat.ceil_pos.mpr ht
  · have h0 : (0 : ℝ) ≤ (low - x) / range - 1 := by linarith
    have hc := Nat.ceil_add_one h0
    have heq : (low - x) / range - 1 + 1 = (low - x) / range := by ring
    rw [heq] at hc
    omega

/-- `Angle::wrap` (angle.rs 101-113).  The initial `assert!(high_limit > low_limit)`
is a fatal contract violation when it fails, modelled as `none`.  The derived
`PartialOrd` on `Angle` compares the radian payloads. -/
noncomputable def Angle.wrap (a low_limit high_limit : Angle) : Option Angle :=
  if low_limit.radians < high_limit.radians then
    some ⟨wrapLoopUp
            (wrapLoopDown a.radians high_limit.radians
               (high_limit.radians - low_limit.radians))
            low_limit.radians
            (high_limit.radians - low_limit.radians)⟩
  else
    none

theorem wrapLoopDown_le (x high range : ℝ) (hr : 0 < range) :
    wrapLoopDown x high range ≤ high := by
  induction x, high, range using wrapLoopDown.induct with
  | case1 x high range h ih =>
    rw [wrapLoopDown, if_pos h]
    exact ih hr
  | case2 x high range h =>
    rw [wrapLoopDown, if_neg h]
    rcases not_and_or.mp h with h' | h'
    · exact absurd hr h'
    · exact le_of_not_lt h'

theorem wrapLoopDown_sub (x high range : ℝ) (hr : 0 < range) :
    ∃ k : ℕ, wrapLoopDown x high range = x - k * range := by
  induction x, high, range using wrapLoopDown.induct with
  | case1 x high range h ih =>
    obtain ⟨k, hk⟩ := ih hr
    refine ⟨k + 1, ?_⟩
    rw [wrapLoopDown, if_pos h, hk]
    push_cast
    ring
  | case2 x high range h =>
    refine ⟨0, ?_⟩
    rw [wrapLoopDown, if_neg h]
    push_cast
    ring

theorem wrapLoopUp_ge (x low range : ℝ) (hr : 0 < range) :
    low ≤ wrapLoopUp x low range := by
  induction x, low, range using wrapLoopUp.induct with
  | case1 x low range h ih =>
    rw [wrapLoopUp, if_pos h]
    exact ih hr
  | case2 x low range h =>
    rw [wrapLoopUp, if_neg h]
    rcases not_and_or.mp h with h' | h'
    · exact absurd hr h'
    · exact le_of_not_lt h'

theorem wrapLoopUp_le (x low range bound : ℝ) (hr : 0 < range)
    (hx : x ≤ bound) (hlr : low + range ≤ bound) :
    wrapLoopUp x low range ≤ bound := by
  induction x, low, range using wrapLoopUp.induct with
  | case1 x low range h ih =>
    rw [wrapLoopUp, if_pos h]
    have hxr : x + range ≤ bound := by
      have := h.2
      linarith
    exact ih hr hxr hlr
  | case2 x low range h =>
    rw [wrapLoopUp, if_neg h]
    exact hx

theorem wrapLoopUp_add (x low range : ℝ) (hr : 0 < range) :
    ∃ k : ℕ, wrapLoopUp x low range = x + k * range := by
  induction x, low, range using wrapLoopUp.induct with
  | case1 x low range h ih =>
    obtain ⟨k, hk⟩ := ih hr
    refine ⟨k + 1, ?_⟩
    rw [wrapLoopUp, if_pos h, hk]
    push_cast
    ring
  | case2 x low range h =>
    refine ⟨0, ?_⟩
    rw [wrapLoopUp, if_neg h]
    push_cast
    ring

/-- The combined postcondition of `Angle::wrap` on the radian payload, for valid bounds:
the result lands in the closed interval and differs from the input by an
integer multiple of the range. -/
theorem wrap_spec (x low high : ℝ) (h : low < high) :
    low ≤ wrapLoopUp (wrapLoopDown x high (high - low)) low (high - low) ∧
      wrapLoopUp (wrapLoopDown x high (high - low)) low (high - low) ≤ high ∧
      ∃ k : ℤ, wrapLoopUp (wrapLoopDown x high (high - low)) low (high - low) =
        x + k * (high - low) := by
  have hr : 0 < high - low := by linarith
  refine ⟨wrapLoopUp_ge _ _ _ hr, ?_, ?_⟩
  · exact wrapLoopUp_le _ _ _ _ hr (wrapLoopDown_le x high (high - low) hr) (by linarith)
  · obtain ⟨k₁, hk₁⟩ := wrapLoopDown_sub x high (high - low) hr
    obtain ⟨k₂, hk₂⟩ := wrapLoopUp_add (wrapLoopDown x high (high - low)) low (high - low) hr
    refine ⟨(k₂ : ℤ) - k₁, ?_⟩
    rw [hk₂, hk₁]
    push_cast
    ring

/-! ### Non-termination of the `wrap` loops under f64 rounding

The loops above model `self -= range` / `self += range` as exact real
arithmetic, which is the right reading for the value-level contracts: when the
machine loop does reach its exit condition, rounding only perturbs the value.
Whether the loop *reaches* its exit condition is a different question: the
machine subtraction is IEEE-754 binary64 subtraction, which rounds its exact
result to the nearest representable double, and once `range` is at most half an
ulp of the running value the rounded result of `self - range` is `self` itself
— the loop variable never changes and `while self > high` spins forever.

Every finite double is a rational `m · 2^e` with `|m| < 2^53`, so the model
below works in ℚ: the loop structure of angle.rs 104-106 is kept verbatim (with
an explicit fuel budget), the machine subtraction is an abstract `sub`
constrained only by the IEEE correct-rounding requirement at the one input the
divergence argument needs. -/

/-- A rational exactly representable as an IEEE-754 binary64 value:
`m · 2^e` with a 53-bit significand (`9007199254740992 = 2^53`; every finite
double has this form — the exponent range, irrelevant at the magnitudes used
here, is not constrained). -/
def Representable (r : ℚ) : Prop :=
  ∃ m e : ℤ, |m| < 9007199254740992 ∧ r = (m : ℚ) * 2 ^ e

/-- The first `wrap` loop (`while self > high { self -= range }`, angle.rs
104-106) with an explicit fuel budget and the machine subtraction `x - range`
left abstract as `sub x range`: `none` means the loop did not reach its exit
condition within the budget. -/
def wrapLoopDownWith (sub : ℚ → ℚ → ℚ) : ℕ → ℚ → ℚ → ℚ → Option ℚ
  | 0, _, _, _ => none
  | n + 1, x, high, range =>
      if high < x then wrapLoopDownWith sub n (sub x range) high range else some x

/-- `10^17` is a finite double: `6250000000000000 · 2^4`. -/
theorem representable_1e17 : Representable (100000000000000000 : ℚ) :=
  ⟨6250000000000000, 4, by norm_num,
    by rw [show (4 : ℤ) = ((4 : ℕ) : ℤ) from rfl, zpow_natCast]; norm_num⟩

/-- Near `10^17` the double grid is spaced `2^4 = 16` apart: the only
representable value within distance 15 of the exact difference `10^17 - 1` is
`10^17` itself (at distance 1).  Values with exponent at most 3 are below
`2^56 < 10^17 - 1 - 15`; values with exponent at least 4 are multiples of 16. -/
theorem representable_near_1e17 (z : ℚ) (hz : Representable z) :
    z = 100000000000000000 ∨ (15 : ℚ) ≤ |z - (100000000000000000 - 1)| := by
  obtain ⟨m, e, hm, rfl⟩ := hz
  rcases le_or_lt e 3 with he | he
  · right
    have hm2 := abs_lt.mp hm
    have h2e : (0:ℚ) < (2:ℚ) ^ e := by positivity
    have h2e8 : (2:ℚ) ^ e ≤ 8 := by
      calc (2:ℚ) ^ e ≤ (2:ℚ) ^ (3:ℤ) := zpow_le_zpow_right₀ (by norm_num) he
        _ = 8 := by norm_num
    have hm1 : (m:ℚ) ≤ 9007199254740991 := by
      exact_mod_cast (by omega : m ≤ 9007199254740991)
    have hle : (m : ℚ) * 2 ^ e ≤ 72057594037927928 := by
      calc (m:ℚ) * 2 ^ e ≤ 9007199254740991 * 2 ^ e :=
            mul_le_mul_of_nonneg_right hm1 h2e.le
        _ ≤ 9007199254740991 * 8 := mul_le_mul_of_nonneg_left h2e8 (by norm_num)
        _ = 72057594037927928 := by norm_num
    refine le_trans ?_ (neg_le_abs _)
    linarith
  · obtain ⟨n, hn⟩ : ∃ n : ℕ, e = (n : ℤ) + 4 := ⟨(e - 4).toNat, by omega⟩
    subst hn
    obtain ⟨M, hM⟩ : ∃ M : ℤ, (m : ℚ) * 2 ^ ((n : ℤ) + 4) = (M : ℚ) * 16 := by
      refine ⟨m * 2 ^ n, ?_⟩
      rw [zpow_add₀ (by norm_num : (2:ℚ) ≠ 0), zpow_natCast]
      push_cast
      ring
    rw [hM]
    rcases eq_or_ne M 6250000000000000 with rfl | hne
    · left
      norm_num
    · right
      rcases hne.lt_or_lt with hlt | hgt
      · have hq : (M : ℚ) ≤ 6249999999999999 := by
          exact_mod_cast (by omega : M ≤ 6249999999999999)
        refine le_trans ?_ (neg_le_abs _)
        linarith
      · have hq : (6250000000000001 : ℚ) ≤ (M : ℚ) := by
          exact_mod_cast (by omega : 6250000000000001 ≤ M)
        refine le_trans ?_ (le_abs_self _)
        linarith

/-- `10^17` minimises the distance to the exact difference `10^17 - 1` over all
representable values: the witness that real IEEE subtraction (a correct
rounding) satisfies the hypothesis of the divergence theorem. -/
theorem near_1e17_ge (z : ℚ) (hz : Representable z) :
    |(100000000000000000 : ℚ) - (100000000000000000 - 1)| ≤
      |z - (100000000000000000 - 1)| := by
  rw [show |(100000000000000000 : ℚ) - (100000000000000000 - 1)| = 1 by norm_num]
  rcases representable_near_1e17 z hz with rfl | h
  · norm_num
  · linarith

/-- Claim C4: for bounds with `low < high`, `Angle::wrap` returns a value in the closed
interval `[low, high]` that differs from the input angle by an integer multiple of
`high - low`; calling `wrap` with `high ≤ low` is a fatal contract violation
(modelled as `none`). -/
theorem c4_wrap_range_and_multiple (a low high : Angle) :
    (low.radians < high.radians →
      ∃ w, a.wrap low high = some w ∧
        low.radians ≤ w.radians ∧ w.radians ≤ high.radians ∧
        ∃ k : ℤ, w.radians = a.radians + k * (high.radians - low.radians)) ∧
    (high.radians ≤ low.radians → a.wrap low high = none) := by
  constructor
  · intro h
    obtain ⟨h1, h2, k, hk⟩ := wrap_spec a.radians low.radians high.radians h
    exact ⟨_, by rw [Angle.wrap, if_pos h], h1, h2, k, hk⟩
  · intro h
    rw [Angle.wrap, if_neg (not_lt.mpr h)]

/-- Witness for C4 at the concrete input a = 5 rad, bounds [0 rad, 2 rad]. -/
theorem c4_wrap_range_and_multiple_witness :
    ∃ w, (Angle.mk 5).wrap (Angle.mk 0) (Angle.mk 2) = some w ∧
      (Angle.mk 0).radians ≤ w.radians ∧ w.radians ≤ (Angle.mk 2).radians ∧
      ∃ k : ℤ, w.radians = (Angle.mk 5).radians +
        k * ((Angle.mk 2).radians - (Angle.mk 0).radians) :=
  (c4_wrap_range_and_multiple (Angle.mk 5) (Angle.mk 0) (Angle.mk 2)).1 (by norm_num)

/-- Claim C10: the claimed termination is false of the program.  At the finite
double inputs `a = 10^17` rad, `low = 0`, `high = 1` (so `range = 1`), the
exact step value `10^17 - 1` is not a double and the nearest double is `10^17`
itself, so any machine subtraction `sub` that correctly rounds this step
(IEEE-754 binary64 does: `1e17 - 1.0 == 1e17`) is absorbed — the first `wrap`
loop's variable never changes, the strict guard `self > high` stays true, and
the loop exhausts every finite iteration budget (`none` for all fuels). -/
theorem c10_wrap_first_loop_diverges (sub : ℚ → ℚ → ℚ)
    (hrep : Representable (sub 100000000000000000 1))
    (hnear : ∀ z : ℚ, Representable z →
      |sub 100000000000000000 1 - (100000000000000000 - 1)| ≤
        |z - (100000000000000000 - 1)|) :
    sub 100000000000000000 1 = 100000000000000000 ∧
    ∀ fuel : ℕ, wrapLoopDownWith sub fuel 100000000000000000 1 1 = none := by
  have hub : |sub 100000000000000000 1 - (100000000000000000 - 1)| ≤ 1 := by
    have h := hnear 100000000000000000 representable_1e17
    calc |sub 100000000000000000 1 - (100000000000000000 - 1)|
        ≤ |(100000000000000000 : ℚ) - (100000000000000000 - 1)| := h
      _ = 1 := by norm_num
  have heq : sub 100000000000000000 1 = 100000000000000000 := by
    rcases representable_near_1e17 _ hrep with h | h
    · exact h
    · exact absurd (le_trans h hub) (by norm_num)
  refine ⟨heq, ?_⟩
  intro fuel
  induction fuel with
  | zero => rfl
  | succ n ih =>
    simp only [wrapLoopDownWith]
    rw [if_pos (by norm_num : (1:ℚ) < 100000000000000000), heq]
    exact ih

/-- Witness for C10's divergence at a concrete budget: a subtraction fixed at
the absorbed value (the behaviour IEEE subtraction has at this input, by
`near_1e17_ge`) exhausts a budget of 1000 iterations. -/
theorem c10_wrap_first_loop_diverges_witness :
    wrapLoopDownWith (fun x _ => x) 1000 100000000000000000 1 1 = none :=
  (c10_wrap_first_loop_diverges (fun x _ => x) representable_1e17
    (fun z hz => near_1e17_ge z hz)).2 1000

/-! ## Inverse trigonometry and NaN (src/angle.rs 69-76)

An `f64` is either a finite value or a NaN for the purposes of the inverse
trigonometric constructors; `F64.nan` models the IEEE NaN produced by
`f64::asin` / `f64::acos` outside `[-1, 1]`.
-/

/-- An `f64` result that may be NaN. -/
inductive F64 where
  | val : ℝ → F64
  | nan : F64

/-- IEEE-754 `f64::asin`: arcsine on `[-1, 1]`, NaN outside. -/
noncomputable def f64Asin (x : ℝ) : F64 :=
  if -1 ≤ x ∧ x ≤ 1 then F64.val (Real.arcsin x) else F64.nan

/-- IEEE-754 `f64::acos`: arccosine on `[-1, 1]`, NaN outside. -/
noncomputable def f64Acos (x : ℝ) : F64 :=
  if -1 ≤ x ∧ x ≤ 1 then F64.val (Real.arccos x) else F64.nan

/-- `Angle::asin` (angle.rs 69-71): `Angle(item.asin())`.  The function returns
normally; the radian payload of the produced `Angle` is the (possibly NaN)
value of `f64::asin`, reported here as an `F64`. -/
noncomputable def Angle.asinRadians (item : ℝ) : F64 :=
  f64Asin item

/-- `Angle::acos` (angle.rs 74-76): `Angle(item.acos())`. -/
noncomputable def Angle.acosRadians (item : ℝ) : F64 :=
  f64Acos item

/-- Claim C9: for inputs of magnitude greater than 1, `Angle::asin` and `Angle::acos`
return normally (they are total functions, not contract violations) and the
radian value of the returned Angle is NaN. -/
theorem c9_asin_acos_nan (x : ℝ) (h : 1 < |x|) :
    Angle.asinRadians x = F64.nan ∧ Angle.acosRadians x = F64.nan := by
  have hn : ¬(-1 ≤ x ∧ x ≤ 1) := by
    intro ⟨h1, h2⟩
    have : |x| ≤ 1 := abs_le.mpr ⟨h1, h2⟩
    linarith
  exact ⟨by rw [Angle.asinRadians, f64Asin, if_neg hn],
        by rw [Angle.acosRadians, f64Acos, if_neg hn]⟩

/-- Witness for C9 at the concrete input x = 2. -/
theorem c9_asin_acos_nan_witness :
    Angle.asinRadians 2 = F64.nan ∧ Angle.acosRadians 2 = F64.nan :=
  c9_asin_acos_nan 2 (by norm_num)

/-! ## Planetary position evaluator (src/planets/mod.rs)

The per-planet coefficient tables (`mercury::LTERMS`, ..., files not part of the
kernel sources; the specification treats them as opaque static data) are
modelled parametrically: a `PlanetData` holds the `(LTERMS, BTERMS, RTERMS)`
triple that `Planet::get_location` selects for the chosen planet, and the
evaluator is verified for every possible table. -/

/-- Heliocentric spherical coordinates (src/coords.rs 23-27). -/
structure HeliocentricSpherical where
  latitude : Angle
  longitude : Angle
  radius : ℝ

/-- The periodic-term tables of one planet: for each of L, B, R, a list of
term-sets, each term-set a list of (A, B, C) triples. -/
structure PlanetData where
  lterms : List (List (ℝ × ℝ × ℝ))
  bterms : List (List (ℝ × ℝ × ℝ))
  rterms : List (List (ℝ × ℝ × ℝ))

/-- `sum_terms` (planets/mod.rs 62-73): zip the term-sets with the powers `0..6`,
each triple contributes `a * (b + c*tau).cos() * tau.powi(power)`, sum everything. -/
noncomputable def sum_terms (terms : List (List (ℝ × ℝ × ℝ))) (tau : ℝ) : ℝ :=
  ((terms.zip (List.range 6)).map fun pt =>
    (pt.1.map fun abc => abc.1 * Real.cos (abc.2.1 + abc.2.2 * tau) * tau ^ pt.2).sum).sum

/-- `Planet::get_location` (planets/mod.rs 35-59), parametrized by the planet's
tables.  The two `wrap` calls carry valid bounds, so the `Option` is always
`some`; `none` would model the (unreachable) `wrap` assertion failure. -/
noncomputable def get_location (pd : PlanetData) (t : ℝ) : Option HeliocentricSpherical :=
  let tau := (t - 2451545.0) / 365250.0
  let l := sum_terms pd.lterms tau
  let b := sum_terms pd.bterms tau
  let r := sum_terms pd.rterms tau
  match (Angle.from_radians l).wrap (Angle.from_degrees 0.0) (Angle.from_degrees 360.0),
        (Angle.from_radians b).wrap (Angle.from_degrees (-90.0)) (Angle.from_degrees 90.0) with
  | some lon, some lat => some ⟨lat, lon, r⟩
  | _, _ => none

/-- The series total exactly as the specification words it: the sum over the six
powers `0..5` of `τ^power` times the sum of that term-set's `A·cos(B + C·τ)`
contributions.  Stated from the spec, for comparison with `sum_terms`. -/
noncomputable def specSeriesTotal (terms : List (List (ℝ × ℝ × ℝ))) (tau : ℝ) : ℝ :=
  ∑ p ∈ Finset.range 6,
    tau ^ p * ((terms.getD p []).map fun abc =>
      abc.1 * Real.cos (abc.2.1 + abc.2.2 * tau)).sum

theorem list_sum_map_mul_const (l : List (ℝ × ℝ × ℝ)) (g : ℝ × ℝ × ℝ → ℝ) (c : ℝ) :
    (l.map fun x => g x * c).sum = (l.map g).sum * c := by
  induction l with
  | nil => simp
  | cons hd tl ih => simp [ih, add_mul]

theorem exists_six (l : List (List (ℝ × ℝ × ℝ))) (h : l.length = 6) :
    ∃ a b c d e f, l = [a, b, c, d, e, f] := by
  rcases l with _ | ⟨a, _ | ⟨b, _ | ⟨c, _ | ⟨d, _ | ⟨e, _ | ⟨f, rest⟩⟩⟩⟩⟩⟩ <;>
    simp_all

theorem sum_terms_eq_spec (terms : List (List (ℝ × ℝ × ℝ))) (tau : ℝ)
    (h : terms.length = 6) : sum_terms terms tau = specSeriesTotal terms tau := by
  obtain ⟨a, b, c, d, e, f, rfl⟩ := exists_six terms h
  have hr : List.range 6 = [0, 1, 2, 3, 4, 5] := rfl
  simp only [sum_terms, specSeriesTotal, hr, List.zip, List.zipWith, List.map_cons,
    List.map_nil, List.sum_cons, List.sum_nil, Finset.sum_range_succ,
    Finset.sum_range_zero, List.getD_cons_zero, List.getD_cons_succ]
  rw [list_sum_map_mul_const a _ (tau ^ 0), list_sum_map_mul_const b _ (tau ^ 1),
    list_sum_map_mul_const c _ (tau ^ 2), list_sum_map_mul_const d _ (tau ^ 3),
    list_sum_map_mul_const e _ (tau ^ 4), list_sum_map_mul_const f _ (tau ^ 5)]
  ring

/-- Claim C1: `Planet::get_location` computes `τ = (t − 2451545)/365250` and the
longitude, latitude and radius it returns are (before any wrapping) exactly the
specification's six-power series totals over the L, B and R tables. -/
theorem c1_series_evaluation (pd : PlanetData) (t : ℝ)
    (hl : pd.lterms.length = 6) (hb : pd.bterms.length = 6)
    (hr : pd.rterms.length = 6) :
    get_location pd t =
      match (Angle.from_radians
              (specSeriesTotal pd.lterms ((t - 2451545.0) / 365250.0))).wrap
              (Angle.from_degrees 0.0) (Angle.from_degrees 360.0),
            (Angle.from_radians
              (specSeriesTotal pd.bterms ((t - 2451545.0) / 365250.0))).wrap
              (Angle.from_degrees (-90.0)) (Angle.from_degrees 90.0) with
      | some lon, some lat =>
          some ⟨lat, lon, specSeriesTotal pd.rterms ((t - 2451545.0) / 365250.0)⟩
      | _, _ => none := by
  rw [get_location, sum_terms_eq_spec pd.lterms _ hl, sum_terms_eq_spec pd.bterms _ hb,
    sum_terms_eq_spec pd.rterms _ hr]

/-- Witness for C1 at a concrete table (six empty term-sets per quantity) and t = 0. -/
theorem c1_series_evaluation_witness :
    get_location ⟨[[], [], [], [], [], []], [[], [], [], [], [], []],
        [[], [], [], [], [], []]⟩ 0 =
      match (Angle.from_radians
              (specSeriesTotal [[], [], [], [], [], []] ((0 - 2451545.0) / 365250.0))).wrap
              (Angle.from_degrees 0.0) (Angle.from_degrees 360.0),
            (Angle.from_radians
              (specSeriesTotal [[], [], [], [], [], []] ((0 - 2451545.0) / 365250.0))).wrap
              (Angle.from_degrees (-90.0)) (Angle.from_degrees 90.0) with
      | some lon, some lat =>
          some ⟨lat, lon, specSeriesTotal [[], [], [], [], [], []]
            ((0 - 2451545.0) / 365250.0)⟩
      | _, _ => none :=
  c1_series_evaluation ⟨[[], [], [], [], [], []], [[], [], [], [], [], []],
    [[], [], [], [], [], []]⟩ 0 (by simp) (by simp) (by simp)

theorem from_degrees_radians (d : ℝ) : (Angle.from_degrees d).radians = d * (Real.pi / 180) :=
  rfl

theorem deg0_lt_deg360 : (Angle.from_degrees 0.0).radians < (Angle.from_degrees 360.0).radians := by
  rw [from_degrees_radians, from_degrees_radians]
  have hpi : (0 : ℝ) < Real.pi := Real.pi_pos
  nlinarith

theorem degm90_lt_deg90 :
    (Angle.from_degrees (-90.0)).radians < (Angle.from_degrees 90.0).radians := by
  rw [from_degrees_radians, from_degrees_radians]
  have hpi : (0 : ℝ) < Real.pi := Real.pi_pos
  nlinarith

/-- `get_location` with its two always-satisfied `wrap` assertions discharged. -/
theorem get_location_closed (pd : PlanetData) (t : ℝ) :
    get_location pd t = some
      ⟨⟨wrapLoopUp
          (wrapLoopDown (sum_terms pd.bterms ((t - 2451545.0) / 365250.0))
            (Angle.from_degrees 90.0).radians
            ((Angle.from_degrees 90.0).radians - (Angle.from_degrees (-90.0)).radians))
          (Angle.from_degrees (-90.0)).radians
          ((Angle.from_degrees 90.0).radians - (Angle.from_degrees (-90.0)).radians)⟩,
       ⟨wrapLoopUp
          (wrapLoopDown (sum_terms pd.lterms ((t - 2451545.0) / 365250.0))
            (Angle.from_degrees 360.0).radians
            ((Angle.from_degrees 360.0).radians - (Angle.from_degrees 0.0).radians))
          (Angle.from_degrees 0.0).radians
          ((Angle.from_degrees 360.0).radians - (Angle.from_degrees 0.0).radians)⟩,
       sum_terms pd.rterms ((t - 2451545.0) / 365250.0)⟩ := by
  simp only [get_location, Angle.wrap, Angle.from_radians, if_pos deg0_lt_deg360,
    if_pos degm90_lt_deg90]

/-- Claim C2 amended: the longitude returned by `get_location` lies in the closed
interval [0°, 360°] (the `wrap` loops stop as soon as the value is not strictly
outside a bound, so the value 360° itself can be returned), the latitude lies in
[−90°, 90°], and the radius is the raw unwrapped series sum with no positivity
check. -/
theorem c2_amended_location_ranges (pd : PlanetData) (t : ℝ) :
    ∃ hs, get_location pd t = some hs ∧
      (Angle.from_degrees 0.0).radians ≤ hs.longitude.radians ∧
      hs.longitude.radians ≤ (Angle.from_degrees 360.0).radians ∧
      (Angle.from_degrees (-90.0)).radians ≤ hs.latitude.radians ∧
      hs.latitude.radians ≤ (Angle.from_degrees 90.0).radians ∧
      hs.radius = sum_terms pd.rterms ((t - 2451545.0) / 365250.0) := by
  refine ⟨_, get_location_closed pd t, ?_, ?_, ?_, ?_, rfl⟩
  · exact (wrap_spec _ _ _ deg0_lt_deg360).1
  · exact (wrap_spec _ _ _ deg0_lt_deg360).2.1
  · exact (wrap_spec _ _ _ degm90_lt_deg90).1
  · exact (wrap_spec _ _ _ degm90_lt_deg90).2.1

/-- Counterexample to claim C2 as stated: a table and an instant at which the
returned longitude is exactly 360 degrees, hence not in the half-open range
[0°, 360°).  The L table holds the single zero-frequency term 4π·cos(0). -/
theorem c2_longitude_counterexample :
    ∃ hs, get_location ⟨[[(4 * Real.pi, 0, 0)]], [], []⟩ 2451545.0 = some hs ∧
      hs.longitude.radians = (Angle.from_degrees 360.0).radians ∧
      ¬hs.longitude.radians < (Angle.from_degrees 360.0).radians := by
  have hpi : (0 : ℝ) < Real.pi := Real.pi_pos
  have htau : ((2451545.0 : ℝ) - 2451545.0) / 365250.0 = 0 := by norm_num
  have h360 : (Angle.from_degrees 360.0).radians = 2 * Real.pi := by
    rw [from_degrees_radians]
    ring
  have h0 : (Angle.from_degrees 0.0).radians = 0 := by
    rw [from_degrees_radians]
    ring
  have h90 : (Angle.from_degrees 90.0).radians = Real.pi / 2 := by
    rw [from_degrees_radians]
    ring
  have hm90 : (Angle.from_degrees (-90.0)).radians = -(Real.pi / 2) := by
    rw [from_degrees_radians]
    ring
  have hrange : List.range 6 = 0 :: [1, 2, 3, 4, 5] := rfl
  have hl : sum_terms [[(4 * Real.pi, 0, 0)]] 0 = 4 * Real.pi := by
    rw [sum_terms, hrange]
    simp [List.zip]
  have hb : sum_terms ([] : List (List (ℝ × ℝ × ℝ))) 0 = 0 := by
    rw [sum_terms, hrange]
    simp [List.zip]
  have hd1 : wrapLoopDown (4 * Real.pi) (2 * Real.pi) (2 * Real.pi) = 2 * Real.pi := by
    rw [wrapLoopDown, if_pos ⟨by positivity, by nlinarith⟩]
    rw [show 4 * Real.pi - 2 * Real.pi = 2 * Real.pi by ring]
    rw [wrapLoopDown, if_neg fun h => lt_irrefl _ h.2]
  have hu1 : wrapLoopUp (2 * Real.pi) 0 (2 * Real.pi) = 2 * Real.pi := by
    rw [wrapLoopUp, if_neg fun h => absurd h.2 (not_lt.mpr (by positivity))]
  have hd2 : wrapLoopDown 0 (Real.pi / 2) Real.pi = 0 := by
    rw [wrapLoopDown, if_neg fun h => absurd h.2 (not_lt.mpr (by positivity))]
  have hu2 : wrapLoopUp 0 (-(Real.pi / 2)) Real.pi = 0 := by
    rw [wrapLoopUp, if_neg fun h => absurd h.2 (not_lt.mpr (by linarith))]
  rw [get_location_closed]
  rw [htau, hl, hb, h360, h0, h90, hm90]
  rw [show 2 * Real.pi - 0 = 2 * Real.pi by ring,
    show Real.pi / 2 - -(Real.pi / 2) = Real.pi by ring]
  rw [hd1, hu1, hd2, hu2]
  exact ⟨_, rfl, rfl, lt_irrefl _⟩


/-! ## Degrees-minutes-seconds decomposition (src/angle.rs 160-184) -/

/-- `f64::trunc`: rounding toward zero, as an integer. -/
noncomputable def rTrunc (x : ℝ) : ℤ :=
  if x < 0 then -⌊-x⌋ else ⌊x⌋

/-- `f64::fract`: `self - self.trunc()`. -/
noncomputable def rFract (x : ℝ) : ℝ :=
  x - rTrunc x

/-- The saturating `as i32` cast applied to an (already truncated) `f64` value. -/
noncomputable def rToI32 (x : ℝ) : ℤ :=
  max (-2147483648) (min 2147483647 (rTrunc x))

/-- `DegreesMinutesSeconds` (angle.rs 160-165). -/
structure DegreesMinutesSeconds where
  degrees : ℤ
  minutes : ℤ
  seconds : ℝ

/-- `DegreesMinutesSeconds::from_angle` (angle.rs 168-178). -/
noncomputable def DegreesMinutesSeconds.from_angle (angle : Angle) : DegreesMinutesSeconds :=
  let degrees := angle.as_degrees
  let minutes := |rFract degrees| * 60
  let seconds := |rFract minutes| * 60
  ⟨rToI32 degrees, rToI32 minutes, seconds⟩

/-- `DegreesMinutesSeconds::as_angle` (angle.rs 180-183). -/
noncomputable def DegreesMinutesSeconds.as_angle (self : DegreesMinutesSeconds) : Angle :=
  Angle.from_degrees ((self.degrees : ℝ) + (self.minutes : ℝ) / 60 + self.seconds / 3600)

/-- `Angle::as_dms` (angle.rs 44-46). -/
noncomputable def Angle.as_dms (a : Angle) : DegreesMinutesSeconds :=
  DegreesMinutesSeconds.from_angle a

theorem as_dms_fields (a : Angle) :
    a.as_dms = ⟨rToI32 a.as_degrees, rToI32 (|rFract a.as_degrees| * 60),
      |rFract (|rFract a.as_degrees| * 60)| * 60⟩ :=
  rfl

theorem as_angle_mk (d m : ℤ) (s : ℝ) :
    (⟨d, m, s⟩ : DegreesMinutesSeconds).as_angle =
      Angle.from_degrees ((d : ℝ) + (m : ℝ) / 60 + s / 3600) :=
  rfl

theorem from_degrees_as_degrees (a : Angle) : Angle.from_degrees a.as_degrees = a := by
  rcases a with ⟨r⟩
  rw [Angle.as_degrees, Angle.from_degrees]
  have hpin : (Real.pi : ℝ) ≠ 0 := ne_of_gt Real.pi_pos
  congr 1
  field_simp

theorem rTrunc_of_nonneg (x : ℝ) (h : 0 ≤ x) : rTrunc x = ⌊x⌋ := by
  rw [rTrunc, if_neg (not_lt.mpr h)]

theorem rFract_of_nonneg (x : ℝ) (h : 0 ≤ x) : rFract x = x - ⌊x⌋ := by
  rw [rFract, rTrunc_of_nonneg x h]

/-- Claim C8 amended: the dms round-trip `as_dms` / `as_angle` reproduces the angle
exactly for angles whose degree value is nonnegative (and small enough that the
`as i32` casts do not saturate); minutes and seconds are always nonnegative
magnitudes, and the degrees component is the truncation of the degree value.
For negative non-integral angles the round-trip is lossy (see the counterexample:
a degrees component of 0 cannot carry the sign, and `as_angle` adds the
minutes/seconds magnitudes instead of subtracting them). -/
theorem c8_amended_dms_roundtrip (a : Angle) (h0 : 0 ≤ a.radians)
    (hbig : a.as_degrees ≤ 2147483647) :
    a.as_dms.as_angle = a ∧ 0 ≤ a.as_dms.minutes ∧ 0 ≤ a.as_dms.seconds ∧
      a.as_dms.degrees = rTrunc a.as_degrees := by
  have hpi : (0 : ℝ) < Real.pi := Real.pi_pos
  have hdeg0 : 0 ≤ a.as_degrees := by
    rw [Angle.as_degrees]
    positivity
  have hfl0 : (0 : ℤ) ≤ ⌊a.as_degrees⌋ := Int.floor_nonneg.mpr hdeg0
  have hflhi : (⌊a.as_degrees⌋ : ℤ) ≤ 2147483647 := by
    have h1 : a.as_degrees < 2147483648 := lt_of_le_of_lt hbig (by norm_num)
    have h2 : ⌊a.as_degrees⌋ < (2147483648 : ℤ) := Int.floor_lt.mpr (by exact_mod_cast h1)
    omega
  have htr : rTrunc a.as_degrees = ⌊a.as_degrees⌋ := rTrunc_of_nonneg _ hdeg0
  have hI32deg : rToI32 a.as_degrees = ⌊a.as_degrees⌋ := by
    rw [rToI32, htr]
    omega
  have hfr0 : 0 ≤ rFract a.as_degrees := by
    rw [rFract_of_nonneg _ hdeg0]
    have := Int.floor_le a.as_degrees
    linarith
  have hfr1 : rFract a.as_degrees < 1 := by
    rw [rFract_of_nonneg _ hdeg0]
    have := Int.lt_floor_add_one a.as_degrees
    linarith
  have habs : |rFract a.as_degrees| = rFract a.as_degrees := abs_of_nonneg hfr0
  have hmin0 : 0 ≤ |rFract a.as_degrees| * 60 := by positivity
  have hminfl0 : (0 : ℤ) ≤ ⌊|rFract a.as_degrees| * 60⌋ := Int.floor_nonneg.mpr hmin0
  have hminfl59 : (⌊|rFract a.as_degrees| * 60⌋ : ℤ) ≤ 59 := by
    have hlt : |rFract a.as_degrees| * 60 < 60 := by
      rw [habs]
      nlinarith
    have h2 : ⌊|rFract a.as_degrees| * 60⌋ < (60 : ℤ) := Int.floor_lt.mpr (by exact_mod_cast hlt)
    omega
  have htrm : rTrunc (|rFract a.as_degrees| * 60) = ⌊|rFract a.as_degrees| * 60⌋ :=
    rTrunc_of_nonneg _ hmin0
  have hI32min : rToI32 (|rFract a.as_degrees| * 60) = ⌊|rFract a.as_degrees| * 60⌋ := by
    rw [rToI32, htrm]
    omega
  have hmfr0 : 0 ≤ rFract (|rFract a.as_degrees| * 60) := by
    rw [rFract_of_nonneg _ hmin0]
    have := Int.floor_le (|rFract a.as_degrees| * 60)
    linarith
  have hmabs : |rFract (|rFract a.as_degrees| * 60)| = rFract (|rFract a.as_degrees| * 60) :=
    abs_of_nonneg hmfr0
  refine ⟨?_, ?_, ?_, ?_⟩
  · rw [as_dms_fields, as_angle_mk, hI32deg, hI32min, hmabs, rFract_of_nonneg _ hmin0]
    have hinner : ((⌊a.as_degrees⌋ : ℝ) + (⌊|rFract a.as_degrees| * 60⌋ : ℝ) / 60 +
        (|rFract a.as_degrees| * 60 - (⌊|rFract a.as_degrees| * 60⌋ : ℝ)) * 60 / 3600) =
        a.as_degrees := by
      rw [habs, rFract_of_nonneg _ hdeg0]
      field_simp
      rw [Int.fract, Int.fract]
      ring
    rw [hinner, from_degrees_as_degrees]
  · rw [as_dms_fields]
    exact le_of_le_of_eq hminfl0 hI32min.symm
  · rw [as_dms_fields]
    positivity
  · rw [as_dms_fields]
    exact hI32deg.trans htr.symm

/-- Witness for the amended C8 at the concrete input of 1 radian. -/
theorem c8_amended_dms_roundtrip_witness :
    (Angle.mk 1).as_dms.as_angle = Angle.mk 1 ∧ 0 ≤ (Angle.mk 1).as_dms.minutes ∧
      0 ≤ (Angle.mk 1).as_dms.seconds ∧
      (Angle.mk 1).as_dms.degrees = rTrunc (Angle.mk 1).as_degrees :=
  c8_amended_dms_roundtrip (Angle.mk 1) (by norm_num)
    (by
      rw [Angle.as_degrees]
      have hpi : (3 : ℝ) < Real.pi := Real.pi_gt_three
      rw [one_mul, div_le_iff₀ (by linarith)]
      nlinarith)

/-- Counterexample to claim C8 as stated: the angle −0.5° decomposes to
0° 30′ 0″ (the degrees component 0 cannot carry the sign), and recomposition
yields +0.5°, not −0.5°: the round-trip is not lossless for negative angles. -/
theorem c8_roundtrip_counterexample :
    (Angle.from_degrees (-(1 / 2))).as_dms = ⟨0, 30, 0⟩ ∧
      (Angle.from_degrees (-(1 / 2))).as_dms.as_angle ≠ Angle.from_degrees (-(1 / 2)) := by
  have hpi : (0 : ℝ) < Real.pi := Real.pi_pos
  have hpin : (Real.pi : ℝ) ≠ 0 := ne_of_gt hpi
  have hdeg : (Angle.from_degrees (-(1 / 2))).as_degrees = -(1 / 2) := by
    rw [Angle.from_degrees, Angle.as_degrees]
    field_simp
    ring
  have htr : rTrunc (-(1 / 2) : ℝ) = 0 := by
    rw [rTrunc, if_pos (by norm_num)]
    norm_num
  have hfr : rFract (-(1 / 2) : ℝ) = -(1 / 2) := by
    rw [rFract, htr]
    norm_num
  have habs : |rFract (-(1 / 2) : ℝ)| * 60 = 30 := by
    rw [hfr, abs_neg, abs_of_nonneg (by norm_num : (0 : ℝ) ≤ 1 / 2)]
    norm_num
  have htr30 : rTrunc (30 : ℝ) = 30 := by
    rw [rTrunc, if_neg (by norm_num)]
    norm_num
  have hfr30 : rFract (30 : ℝ) = 0 := by
    rw [rFract, htr30]
    norm_num
  have hdms : (Angle.from_degrees (-(1 / 2))).as_dms = ⟨0, 30, 0⟩ := by
    rw [as_dms_fields, hdeg, habs, hfr30]
    rw [rToI32, rToI32, htr, htr30]
    norm_num
  refine ⟨hdms, ?_⟩
  rw [hdms, as_angle_mk]
  intro hcontra
  have harg : ((0 : ℤ) : ℝ) + ((30 : ℤ) : ℝ) / 60 + (0 : ℝ) / 3600 = (1 : ℝ) / 2 := by
    norm_num
  rw [harg, Angle.from_degrees, Angle.from_degrees] at hcontra
  have hrad := congrArg Angle.radians hcontra
  simp only at hrad
  have hdiff : (1 : ℝ) / 2 * (Real.pi / 180) - -(1 / 2) * (Real.pi / 180) = 0 := by
    rw [hrad]
    ring
  have hz : Real.pi = 0 := by linarith
  exact hpin hz

/-! ## Time: Julian Day and calendar dates (src/time/mod.rs, src/time/date.rs)

The calendar arithmetic is exact on the modelled inputs, so `f64` values are
modelled as `ℚ` here; `f64::floor` is the true floor on these values. -/

/-- `f64::trunc` on a rational: rounding toward zero. -/
def qTrunc (x : ℚ) : ℤ :=
  if x < 0 then -⌊-x⌋ else ⌊x⌋

/-- `f64::fract`: `self - self.trunc()`. -/
def qFract (x : ℚ) : ℚ :=
  x - qTrunc x

/-- The saturating `as i32` cast of an `f64` value. -/
def qToI32 (x : ℚ) : ℤ :=
  max (-2147483648) (min 2147483647 (qTrunc x))

/-- The saturating `as u8` cast of an `f64` value. -/
def qToU8 (x : ℚ) : ℕ :=
  (max 0 (min 255 (qTrunc x))).toNat

/-- The wrapping `as u8` cast of an `i32` value. -/
def i32ToU8 (x : ℤ) : ℕ :=
  (x % 256).toNat

/-- `JD` (time/mod.rs 13-14): a newtype over the `f64` day count. -/
structure JD where
  val : ℚ
deriving DecidableEq

/-- `impl From<f64> for JD` (time/mod.rs 23-28): `assert!(item >= 0.0)` is a fatal
contract violation for negative input, modelled as `none`. -/
def JD.fromF64 (item : ℚ) : Option JD :=
  if 0 ≤ item then some ⟨item⟩ else none

/-- `JD::as_f64` (time/mod.rs 18-20). -/
def JD.as_f64 (jd : JD) : ℚ :=
  jd.val

/-- Claim C7: constructing a `JD` from a negative `f64` is a fatal contract violation
(no JD value is produced, and in particular nothing is clamped to zero), while any
nonnegative input succeeds and stores exactly that value. -/
theorem c7_jd_rejects_negative (x : ℚ) :
    (x < 0 → JD.fromF64 x = none) ∧ (0 ≤ x → JD.fromF64 x = some ⟨x⟩) := by
  constructor
  · intro h
    rw [JD.fromF64, if_neg (not_le.mpr h)]
  · intro h
    rw [JD.fromF64, if_pos h]

/-- Witness for C7 at the concrete inputs −1.0 and 0.0. -/
theorem c7_jd_rejects_negative_witness :
    JD.fromF64 (-1) = none ∧ JD.fromF64 0 = some ⟨0⟩ :=
  ⟨(c7_jd_rejects_negative (-1)).1 (by norm_num), (c7_jd_rejects_negative 0).2 (by norm_num)⟩

/-- `Calendar` (date.rs 7-10). -/
inductive Calendar where
  | Julian
  | Gregorian
deriving DecidableEq

/-- `Month` (date.rs 16-29). -/
inductive Month where
  | January
  | February
  | March
  | April
  | May
  | June
  | July
  | August
  | September
  | October
  | November
  | December
deriving DecidableEq

/-- The discriminant values of `Month` (`self.month as i32`). -/
def Month.toInt : Month → ℤ
  | .January => 1
  | .February => 2
  | .March => 3
  | .April => 4
  | .May => 5
  | .June => 6
  | .July => 7
  | .August => 8
  | .September => 9
  | .October => 10
  | .November => 11
  | .December => 12

/-- `impl From<i32> for Month` (date.rs 143-164): the catch-all arm is
`assert!(false, ...)`, a fatal contract violation modelled as `none`. -/
def Month.fromInt (item : ℤ) : Option Month :=
  if item = 1 then some .January
  else if item = 2 then some .February
  else if item = 3 then some .March
  else if item = 4 then some .April
  else if item = 5 then some .May
  else if item = 6 then some .June
  else if item = 7 then some .July
  else if item = 8 then some .August
  else if item = 9 then some .September
  else if item = 10 then some .October
  else if item = 11 then some .November
  else if item = 12 then some .December
  else none

/-- `Date` (date.rs 45-52): calendar tag, year (`i32`), month, day-of-month (`u8`
payload), fractional day (`f64`). -/
structure Date where
  cal : Calendar
  year : ℤ
  month : Month
  day : ℕ
  fraction : ℚ
deriving DecidableEq

/-- `Date::to_jd` (date.rs 55-75), including the `JD::from` assertion at the end. -/
def Date.to_jd (self : Date) : Option JD :=
  let ym : ℚ × ℤ :=
    match self.month with
    | .January => ((self.year : ℚ) - 1, self.month.toInt + 12)
    | .February => ((self.year : ℚ) - 1, self.month.toInt + 12)
    | _ => ((self.year : ℚ), self.month.toInt)
  let y := ym.1
  let m := ym.2
  let a : ℚ := (⌊y / 100⌋ : ℤ)
  let b : ℚ :=
    match self.cal with
    | .Julian => 0
    | .Gregorian => 2 - a + (⌊a / 4⌋ : ℤ)
  JD.fromF64 (((⌊(365.25 : ℚ) * (y + 4716)⌋ : ℤ) : ℚ)
    + ((⌊(30.6001 : ℚ) * ((m : ℚ) + 1)⌋ : ℤ) : ℚ)
    + (self.day : ℚ) + self.fraction + b - 1524.5)

/-! `Date::from_jd` (date.rs 77-113) is modelled with one definition per local
`let` of the Rust body; `v` is the `f64` value of the input JD.  The `f64`
locals `z`, `a`, `b`, `c`, `d`, `e` are integer-valued (results of `floor`),
so the integer-valued ones are given type `ℤ` with explicit casts where the
Rust code mixes them back into `f64` arithmetic. -/

/-- `let z = (jd + 0.5).floor()`. -/
def fjZ (v : ℚ) : ℤ :=
  ⌊v + 0.5⌋

/-- `let f = (jd + 0.5) - z`. -/
def fjF (v : ℚ) : ℚ :=
  (v + 0.5) - (fjZ v : ℚ)

/-- `let alpha = ((z - 1867216.25) / 36524.25).floor()`. -/
def fjAlpha (v : ℚ) : ℤ :=
  ⌊(((fjZ v) : ℚ) - 1867216.25) / 36524.25⌋

/-- `let a = if z < 2299161.0 { z } else { z + 1.0 + alpha - (alpha / 4.0).floor() }`. -/
def fjA (v : ℚ) : ℚ :=
  if ((fjZ v) : ℚ) < 2299161 then ((fjZ v) : ℚ)
  else ((fjZ v) : ℚ) + 1 + ((fjAlpha v) : ℚ) - ((⌊((fjAlpha v) : ℚ) / 4⌋ : ℤ) : ℚ)

/-- `let b = a + 1524.0`. -/
def fjB (v : ℚ) : ℚ :=
  fjA v + 1524

/-- `let c = ((b - 122.1) / 365.25).floor()`. -/
def fjC (v : ℚ) : ℤ :=
  ⌊(fjB v - 122.1) / 365.25⌋

/-- `let d = (365.25 * c).floor()`. -/
def fjD (v : ℚ) : ℤ :=
  ⌊(365.25 : ℚ) * ((fjC v) : ℚ)⌋

/-- `let e = ((b - d) / 30.6001).floor()`. -/
def fjE (v : ℚ) : ℤ :=
  ⌊(fjB v - ((fjD v) : ℚ)) / 30.6001⌋

/-- `let day_fraction = b - d - (30.6001 * e).floor() + f`. -/
def fjDayFraction (v : ℚ) : ℚ :=
  fjB v - ((fjD v) : ℚ) - ((⌊(30.6001 : ℚ) * ((fjE v) : ℚ)⌋ : ℤ) : ℚ) + fjF v

/-- `let day = day_fraction.trunc()`. -/
def fjDay (v : ℚ) : ℤ :=
  qTrunc (fjDayFraction v)

/-- `let fraction = day_fraction.fract()`. -/
def fjFraction (v : ℚ) : ℚ :=
  qFract (fjDayFraction v)

/-- `let month = if e < 14.0 { (e - 1.0) as i32 } else { (e - 13.0) as i32 }`. -/
def fjMonth (v : ℚ) : ℤ :=
  if ((fjE v) : ℚ) < 14 then qToI32 (((fjE v) : ℚ) - 1) else qToI32 (((fjE v) : ℚ) - 13)

/-- `let year = if month > 2 { c - 4716.0 } else { c - 4715.0 }`. -/
def fjYear (v : ℚ) : ℚ :=
  if 2 < fjMonth v then ((fjC v) : ℚ) - 4716 else ((fjC v) : ℚ) - 4715

/-- `Date::from_jd` (date.rs 77-113).  The `Month::from` conversion can be a fatal
contract violation, hence the `Option`. -/
def Date.from_jd : JD → Option Date
  | ⟨v⟩ =>
    (Month.fromInt (fjMonth v)).map fun mo =>
      { cal := if 2299068.5 ≤ v then Calendar.Gregorian else Calendar.Julian
        year := qToI32 (fjYear v)
        month := mo
        day := qToU8 (((fjDay v) : ℤ) : ℚ)
        fraction := fjFraction v }

/-- Claim C5: the calendar tag of the `Date` produced by `Date::from_jd` is
`Gregorian` exactly when the input JD is at least 2299068.5 and `Julian`
otherwise, regardless of any originating calendar (the function only sees the
JD). -/
theorem c5_from_jd_calendar_threshold (jd : JD) (d : Date)
    (h : Date.from_jd jd = some d) :
    d.cal = Calendar.Gregorian ↔ (2299068.5 : ℚ) ≤ jd.val := by
  obtain ⟨v⟩ := jd
  simp only [Date.from_jd, Option.map_eq_some'] at h
  obtain ⟨mo, hmo, hd⟩ := h
  rw [← hd]
  simp only
  rcases le_or_lt (2299068.5 : ℚ) v with hc | hc
  · rw [if_pos hc]
    simp [hc]
  · rw [if_neg (not_le.mpr hc)]
    simp only [reduceCtorEq, false_iff, not_le]
    exact hc

/-- Witness for C5: `from_jd` at JD 0 produces the Julian date −4712 January 1.5. -/
theorem c5_from_jd_calendar_threshold_witness :
    ∃ d, Date.from_jd ⟨0⟩ = some d ∧
      (d.cal = Calendar.Gregorian ↔ (2299068.5 : ℚ) ≤ (JD.mk 0).val) := by
  have heval : Date.from_jd ⟨0⟩ =
      some ⟨Calendar.Julian, -4712, Month.January, 1, 1/2⟩ := by
    simp only [Date.from_jd]
    norm_num [fjMonth, fjYear, fjDay, fjFraction, fjDayFraction, fjE, fjD, fjC, fjB,
      fjA, fjAlpha, fjZ, fjF, qTrunc, qFract, qToI32, qToU8, Month.fromInt]
  exact ⟨_, heval, c5_from_jd_calendar_threshold ⟨0⟩ _ heval⟩

/-! ## Easter (src/time/date.rs 202-266)

Rust `i32` division and remainder truncate toward zero: they are modelled by
`Int.tdiv` / `Int.tmod`.  Each `let` of the Rust functions is mirrored by one
definition. -/

theorem tmod_neg_arg (a b : ℤ) : (-a).tmod b = -(a.tmod b) := by
  rw [Int.tmod_def, Int.tmod_def, Int.neg_tdiv]
  ring

theorem tmod_bounds (a b : ℤ) (hb : 0 < b) : -b < a.tmod b ∧ a.tmod b < b := by
  rcases le_or_lt 0 a with ha | ha
  · have h1 := Int.tmod_nonneg b ha
    have h2 := Int.tmod_lt_of_pos a hb
    exact ⟨by linarith, h2⟩
  · have h1 := Int.tmod_nonneg b (by linarith : (0 : ℤ) ≤ -a)
    have h2 := Int.tmod_lt_of_pos (-a) hb
    have h3 : (-a).tmod b = -(a.tmod b) := tmod_neg_arg a b
    constructor <;> omega

theorem tdiv_small (a : ℤ) (h : a.natAbs ≤ 469) : -1 ≤ a.tdiv 451 ∧ a.tdiv 451 ≤ 1 := by
  have h1 : (a.tdiv 451).natAbs = a.natAbs / (451 : ℤ).natAbs := Int.natAbs_tdiv a 451
  have h2 : (451 : ℤ).natAbs = 451 := rfl
  rw [h2] at h1
  omega

namespace GregEaster

def a (y : ℤ) : ℤ := Int.tmod y 19

def b (y : ℤ) : ℤ := Int.tdiv y 100

def c (y : ℤ) : ℤ := Int.tmod y 100

def d (y : ℤ) : ℤ := Int.tdiv (b y) 4

def e (y : ℤ) : ℤ := Int.tmod (b y) 4

def f (y : ℤ) : ℤ := Int.tdiv (b y + 8) 25

def g (y : ℤ) : ℤ := Int.tdiv (b y - f y + 1) 3

def h (y : ℤ) : ℤ := Int.tmod (19 * a y + b y - d y - g y + 15) 30

def i (y : ℤ) : ℤ := Int.tdiv (c y) 4

def k (y : ℤ) : ℤ := Int.tmod (c y) 4

def l (y : ℤ) : ℤ := Int.tmod (32 + 2 * e y + 2 * i y - h y - k y) 7

def m (y : ℤ) : ℤ := Int.tdiv (a y + 11 * h y + 22 * l y) 451

def n (y : ℤ) : ℤ := Int.tdiv (h y + l y - 7 * m y + 114) 31

def p (y : ℤ) : ℤ := Int.tmod (h y + l y - 7 * m y + 114) 31

end GregEaster

/-- `find_gregorian_easter` (date.rs 226-248). -/
def find_gregorian_easter (year : ℤ) : Option Date :=
  (Month.fromInt (GregEaster.n year)).map fun mo =>
    ⟨Calendar.Gregorian, year, mo, i32ToU8 (GregEaster.p year + 1), 0⟩

namespace JulEaster

def a (y : ℤ) : ℤ := Int.tmod y 4

def b (y : ℤ) : ℤ := Int.tmod y 7

def c (y : ℤ) : ℤ := Int.tmod y 19

def d (y : ℤ) : ℤ := Int.tmod (19 * c y + 15) 30

def e (y : ℤ) : ℤ := Int.tmod (2 * a y + 4 * b y - d y + 34) 7

def f (y : ℤ) : ℤ := Int.tdiv (d y + e y + 114) 31

def g (y : ℤ) : ℤ := Int.tmod (d y + e y + 114) 31

end JulEaster

/-- `find_julian_easter` (date.rs 251-266). -/
def find_julian_easter (year : ℤ) : Option Date :=
  (Month.fromInt (JulEaster.f year)).map fun mo =>
    ⟨Calendar.Julian, year, mo, i32ToU8 (JulEaster.g year + 1), 0⟩

/-- `find_easter_by_year` (date.rs 210-216). -/
def find_easter_by_year (year : ℤ) : Option Date :=
  if 1583 ≤ year then find_gregorian_easter year else find_julian_easter year

theorem greg_n_bounds (y : ℤ) : 2 ≤ GregEaster.n y ∧ GregEaster.n y ≤ 5 := by
  have ha : -19 < GregEaster.a y ∧ GregEaster.a y < 19 := by
    unfold GregEaster.a
    exact tmod_bounds _ _ (by norm_num)
  have hh : -30 < GregEaster.h y ∧ GregEaster.h y < 30 := by
    unfold GregEaster.h
    exact tmod_bounds _ _ (by norm_num)
  have hl : -7 < GregEaster.l y ∧ GregEaster.l y < 7 := by
    unfold GregEaster.l
    exact tmod_bounds _ _ (by norm_num)
  have hq : (GregEaster.a y + 11 * GregEaster.h y + 22 * GregEaster.l y).natAbs ≤ 469 := by
    omega
  have hm : -1 ≤ GregEaster.m y ∧ GregEaster.m y ≤ 1 := by
    unfold GregEaster.m
    exact tdiv_small _ hq
  have hsum : 72 ≤ GregEaster.h y + GregEaster.l y - 7 * GregEaster.m y + 114 ∧
      GregEaster.h y + GregEaster.l y - 7 * GregEaster.m y + 114 ≤ 156 := by
    omega
  have hdiv : GregEaster.n y =
      (GregEaster.h y + GregEaster.l y - 7 * GregEaster.m y + 114) / 31 := by
    unfold GregEaster.n
    exact Int.tdiv_eq_ediv (by omega) (by norm_num)
  omega

theorem jul_f_bounds (y : ℤ) : 2 ≤ JulEaster.f y ∧ JulEaster.f y ≤ 4 := by
  have hd : -30 < JulEaster.d y ∧ JulEaster.d y < 30 := by
    unfold JulEaster.d
    exact tmod_bounds _ _ (by norm_num)
  have he : -7 < JulEaster.e y ∧ JulEaster.e y < 7 := by
    unfold JulEaster.e
    exact tmod_bounds _ _ (by norm_num)
  have hdiv : JulEaster.f y = (JulEaster.d y + JulEaster.e y + 114) / 31 := by
    unfold JulEaster.f
    exact Int.tdiv_eq_ediv (by omega) (by norm_num)
  omega

theorem find_gregorian_easter_isSome (y : ℤ) :
    ∃ d, find_gregorian_easter y = some d ∧ d.fraction = 0 := by
  obtain ⟨h2, h5⟩ := greg_n_bounds y
  have hn : GregEaster.n y = 2 ∨ GregEaster.n y = 3 ∨ GregEaster.n y = 4 ∨
      GregEaster.n y = 5 := by omega
  rcases hn with h | h | h | h <;> rw [find_gregorian_easter, h] <;> exact ⟨_, rfl, rfl⟩

theorem find_julian_easter_isSome (y : ℤ) :
    ∃ d, find_julian_easter y = some d ∧ d.fraction = 0 := by
  obtain ⟨h2, h4⟩ := jul_f_bounds y
  have hf : JulEaster.f y = 2 ∨ JulEaster.f y = 3 ∨ JulEaster.f y = 4 := by omega
  rcases hf with h | h | h <;> rw [find_julian_easter, h] <;> exact ⟨_, rfl, rfl⟩

/-- Claim C6: `find_easter_by_year` applies the Gregorian algorithm for years ≥ 1583
and the Julian algorithm for earlier years, always returns a Date with fractional
day exactly 0, and yields Gregorian March 31 for 2024, Gregorian April 20 for
2025 and Julian April 12 for 179. -/
theorem c6_easter_dispatch :
    (∀ y : ℤ,
      (1583 ≤ y → find_easter_by_year y = find_gregorian_easter y) ∧
      (y < 1583 → find_easter_by_year y = find_julian_easter y) ∧
      ∃ d, find_easter_by_year y = some d ∧ d.fraction = 0) ∧
    find_easter_by_year 2024 = some ⟨Calendar.Gregorian, 2024, Month.March, 31, 0⟩ ∧
    find_easter_by_year 2025 = some ⟨Calendar.Gregorian, 2025, Month.April, 20, 0⟩ ∧
    find_easter_by_year 179 = some ⟨Calendar.Julian, 179, Month.April, 12, 0⟩ := by
  refine ⟨fun y => ⟨?_, ?_, ?_⟩, by decide, by decide, by decide⟩
  · intro h
    rw [find_easter_by_year, if_pos h]
  · intro h
    rw [find_easter_by_year, if_neg (not_le.mpr h)]
  · rcases le_or_lt 1583 y with h | h
    · rw [find_easter_by_year, if_pos h]
      exact find_gregorian_easter_isSome y
    · rw [find_easter_by_year, if_neg (not_le.mpr h)]
      exact find_julian_easter_isSome y

/-- Witness for C6 at the concrete years 1583 (Gregorian branch) and 1582 (Julian). -/
theorem c6_easter_dispatch_witness :
    find_easter_by_year 1583 = find_gregorian_easter 1583 ∧
      find_easter_by_year 1582 = find_julian_easter 1582 ∧
      ∃ d, find_easter_by_year 1582 = some d ∧ d.fraction = 0 :=
  ⟨(c6_easter_dispatch.1 1583).1 (by norm_num),
   (c6_easter_dispatch.1 1582).2.1 (by norm_num),
   (c6_easter_dispatch.1 1582).2.2⟩

/-! ## Claim C3: the `Date` / `JD` round trip -/

/-- Counterexample to claim C3 as stated: the (counterfactually Julian-tagged)
date Julian 2000-01-01.0 maps to JD 2451557.5, and `from_jd` of that JD returns
Gregorian 2000-01-14.0 — a different calendar tag and a different day, so the
round trip does not reproduce the Date. -/
theorem c3_roundtrip_counterexample :
    Date.to_jd ⟨Calendar.Julian, 2000, Month.January, 1, 0⟩ = some ⟨2451557.5⟩ ∧
      Date.from_jd ⟨2451557.5⟩ = some ⟨Calendar.Gregorian, 2000, Month.January, 14, 0⟩ ∧
      (⟨Calendar.Gregorian, 2000, Month.January, 14, 0⟩ : Date) ≠
        ⟨Calendar.Julian, 2000, Month.January, 1, 0⟩ := by
  refine ⟨?_, ?_, by decide⟩
  · simp only [Date.to_jd]
    norm_num [Month.toInt, JD.fromF64]
  · simp only [Date.from_jd]
    norm_num [fjMonth, fjYear, fjDay, fjFraction, fjDayFraction, fjE, fjD, fjC, fjB,
      fjA, fjAlpha, fjZ, fjF, qTrunc, qFract, qToI32, qToU8, Month.fromInt]
    decide

/-! Helper lemmas reducing the rational floors of the Meeus algorithms to
integer euclidean division by constants (all divisors positive, so the
euclidean quotient is the floor quotient). -/

theorem qfloor_div_nat (a : ℤ) (b : ℕ) : ⌊((a : ℚ) / (b : ℚ))⌋ = a / (b : ℤ) := by
  exact_mod_cast Rat.floor_intCast_div_natCast a b

theorem qfloor_int_add_fract (n : ℤ) (s : ℚ) (h0 : 0 ≤ s) (h1 : s < 1) :
    ⌊(n : ℚ) + s⌋ = n := by
  rw [add_comm, Int.floor_add_int, Int.floor_eq_zero_iff.mpr ⟨h0, h1⟩, zero_add]

theorem qTrunc_intCast (n : ℤ) : qTrunc ((n : ℤ) : ℚ) = n := by
  rw [qTrunc]
  rcases lt_or_le ((n : ℤ) : ℚ) 0 with h | h
  · rw [if_pos h]
    rw [show (-((n : ℤ) : ℚ)) = (((-n : ℤ)) : ℚ) by push_cast; ring, Int.floor_intCast]
    ring
  · rw [if_neg (not_lt.mpr h), Int.floor_intCast]

theorem qTrunc_int_add_fract (n : ℤ) (s : ℚ) (hn : 0 ≤ n) (h0 : 0 ≤ s) (h1 : s < 1) :
    qTrunc ((n : ℚ) + s) = n := by
  have hnn : (0 : ℚ) ≤ (n : ℚ) + s := add_nonneg (by exact_mod_cast hn) h0
  rw [qTrunc, if_neg (not_lt.mpr hnn), qfloor_int_add_fract n s h0 h1]

theorem qToI32_intCast (n : ℤ) (h1 : -2147483648 ≤ n) (h2 : n ≤ 2147483647) :
    qToI32 ((n : ℤ) : ℚ) = n := by
  rw [qToI32, qTrunc_intCast]
  omega

theorem qToU8_intCast (n : ℤ) (h1 : 0 ≤ n) (h2 : n ≤ 255) :
    qToU8 ((n : ℤ) : ℚ) = n.toNat := by
  rw [qToU8, qTrunc_intCast]
  omega

theorem qfloor_36525_year (y : ℤ) :
    ⌊(365.25 : ℚ) * ((y : ℚ) + 4716)⌋ = 1461 * (y + 4716) / 4 := by
  rw [show (365.25 : ℚ) * ((y : ℚ) + 4716) =
    ((1461 * (y + 4716) : ℤ) : ℚ) / ((4 : ℕ) : ℚ) by push_cast; ring]
  exact qfloor_div_nat _ 4

theorem qfloor_36525_yearm1 (y : ℤ) :
    ⌊(365.25 : ℚ) * ((y : ℚ) - 1 + 4716)⌋ = 1461 * (y - 1 + 4716) / 4 := by
  rw [show (365.25 : ℚ) * ((y : ℚ) - 1 + 4716) =
    ((1461 * (y - 1 + 4716) : ℤ) : ℚ) / ((4 : ℕ) : ℚ) by push_cast; ring]
  exact qfloor_div_nat _ 4

theorem qfloor_36525_intCast (n : ℤ) :
    ⌊(365.25 : ℚ) * ((n : ℤ) : ℚ)⌋ = 1461 * n / 4 := by
  rw [show (365.25 : ℚ) * ((n : ℤ) : ℚ) =
    ((1461 * n : ℤ) : ℚ) / ((4 : ℕ) : ℚ) by push_cast; ring]
  exact qfloor_div_nat _ 4

theorem qfloor_year_div100 (y : ℤ) : ⌊((y : ℚ)) / 100⌋ = y / 100 := by
  rw [show ((y : ℚ)) / 100 = ((y : ℤ) : ℚ) / ((100 : ℕ) : ℚ) by push_cast; ring]
  exact qfloor_div_nat _ 100

theorem qfloor_yearm1_div100 (y : ℤ) : ⌊((y : ℚ) - 1) / 100⌋ = (y - 1) / 100 := by
  rw [show ((y : ℚ) - 1) / 100 = ((y - 1 : ℤ) : ℚ) / ((100 : ℕ) : ℚ) by push_cast; ring]
  exact qfloor_div_nat _ 100

theorem qfloor_intCast_div4 (n : ℤ) : ⌊((n : ℤ) : ℚ) / 4⌋ = n / 4 := by
  rw [show ((n : ℤ) : ℚ) / 4 = ((n : ℤ) : ℚ) / ((4 : ℕ) : ℚ) by push_cast; ring]
  exact qfloor_div_nat _ 4

theorem qfloor_meeus_c (n : ℤ) :
    ⌊(((n : ℤ) : ℚ) - 122.1) / 365.25⌋ = (20 * n - 2442) / 7305 := by
  rw [show (((n : ℤ) : ℚ) - 122.1) / 365.25 =
    ((20 * n - 2442 : ℤ) : ℚ) / ((7305 : ℕ) : ℚ) by push_cast; norm_num; ring]
  exact qfloor_div_nat _ 7305

theorem qfloor_div_306001 (n : ℤ) :
    ⌊((n : ℤ) : ℚ) / 30.6001⌋ = 10000 * n / 306001 := by
  rw [show ((n : ℤ) : ℚ) / 30.6001 =
    ((10000 * n : ℤ) : ℚ) / ((306001 : ℕ) : ℚ) by push_cast; norm_num; ring]
  exact qfloor_div_nat _ 306001

theorem qfloor_306001_mul (n : ℤ) :
    ⌊(30.6001 : ℚ) * ((n : ℤ) : ℚ)⌋ = 306001 * n / 10000 := by
  rw [show (30.6001 : ℚ) * ((n : ℤ) : ℚ) =
    ((306001 * n : ℤ) : ℚ) / ((10000 : ℕ) : ℚ) by push_cast; norm_num; ring]
  exact qfloor_div_nat _ 10000

theorem qfloor_alpha (n : ℤ) :
    ⌊(((n : ℤ) : ℚ) - 1867216.25) / 36524.25⌋ = (4 * n - 7468865) / 146097 := by
  rw [show (((n : ℤ) : ℚ) - 1867216.25) / 36524.25 =
    ((4 * n - 7468865 : ℤ) : ℚ) / ((146097 : ℕ) : ℚ) by push_cast; norm_num; ring]
  exact qfloor_div_nat _ 146097

/-! Integer-level image of the `from_jd` locals, for an input JD of the form
`z0 + s - 0.5` with `0 ≤ s < 1` (every value `to_jd` produces has this form). -/

def invA (z : ℤ) : ℤ :=
  if z < 2299161 then z
  else z + 1 + (4 * z - 7468865) / 146097 - (4 * z - 7468865) / 146097 / 4

def invB (z : ℤ) : ℤ :=
  invA z + 1524

def invC (z : ℤ) : ℤ :=
  (20 * invB z - 2442) / 7305

def invD (z : ℤ) : ℤ :=
  1461 * invC z / 4

def invE (z : ℤ) : ℤ :=
  10000 * (invB z - invD z) / 306001

def invDay (z : ℤ) : ℤ :=
  invB z - invD z - 306001 * invE z / 10000

def invMonth (z : ℤ) : ℤ :=
  if invE z < 14 then invE z - 1 else invE z - 13

def invYear (z : ℤ) : ℤ :=
  if 2 < invMonth z then invC z - 4716 else invC z - 4715

theorem fjZ_eval (z0 : ℤ) (s : ℚ) (hs0 : 0 ≤ s) (hs1 : s < 1) :
    fjZ ((z0 : ℚ) + s - 1/2) = z0 := by
  rw [fjZ, show ((z0 : ℚ) + s - 1/2) + 0.5 = (z0 : ℚ) + s by norm_num]
  exact qfloor_int_add_fract z0 s hs0 hs1

theorem fjF_eval (z0 : ℤ) (s : ℚ) (hs0 : 0 ≤ s) (hs1 : s < 1) :
    fjF ((z0 : ℚ) + s - 1/2) = s := by
  rw [fjF, fjZ_eval z0 s hs0 hs1]
  norm_num

theorem fjAlpha_eval (z0 : ℤ) (s : ℚ) (hs0 : 0 ≤ s) (hs1 : s < 1) :
    fjAlpha ((z0 : ℚ) + s - 1/2) = (4 * z0 - 7468865) / 146097 := by
  rw [fjAlpha, fjZ_eval z0 s hs0 hs1, qfloor_alpha]

theorem fjA_eval (z0 : ℤ) (s : ℚ) (hs0 : 0 ≤ s) (hs1 : s < 1) :
    fjA ((z0 : ℚ) + s - 1/2) = ((invA z0 : ℤ) : ℚ) := by
  rw [fjA, fjZ_eval z0 s hs0 hs1, fjAlpha_eval z0 s hs0 hs1, invA]
  rcases lt_or_le z0 2299161 with h | h
  · rw [if_pos (by exact_mod_cast h), if_pos h]
  · rw [if_neg (by exact_mod_cast not_lt.mpr h), if_neg (not_lt.mpr h),
      qfloor_intCast_div4]
    push_cast
    ring

theorem fjB_eval (z0 : ℤ) (s : ℚ) (hs0 : 0 ≤ s) (hs1 : s < 1) :
    fjB ((z0 : ℚ) + s - 1/2) = ((invB z0 : ℤ) : ℚ) := by
  rw [fjB, fjA_eval z0 s hs0 hs1, invB]
  push_cast
  ring

theorem fjC_eval (z0 : ℤ) (s : ℚ) (hs0 : 0 ≤ s) (hs1 : s < 1) :
    fjC ((z0 : ℚ) + s - 1/2) = invC z0 := by
  rw [fjC, fjB_eval z0 s hs0 hs1, qfloor_meeus_c, invC]

theorem fjD_eval (z0 : ℤ) (s : ℚ) (hs0 : 0 ≤ s) (hs1 : s < 1) :
    fjD ((z0 : ℚ) + s - 1/2) = invD z0 := by
  rw [fjD, fjC_eval z0 s hs0 hs1, qfloor_36525_intCast, invD]

theorem fjE_eval (z0 : ℤ) (s : ℚ) (hs0 : 0 ≤ s) (hs1 : s < 1) :
    fjE ((z0 : ℚ) + s - 1/2) = invE z0 := by
  rw [fjE, fjB_eval z0 s hs0 hs1, fjD_eval z0 s hs0 hs1,
    show (((invB z0 : ℤ) : ℚ) - ((invD z0 : ℤ) : ℚ)) =
      ((invB z0 - invD z0 : ℤ) : ℚ) by push_cast; ring,
    qfloor_div_306001, invE]

theorem fjDayFraction_eval (z0 : ℤ) (s : ℚ) (hs0 : 0 ≤ s) (hs1 : s < 1) :
    fjDayFraction ((z0 : ℚ) + s - 1/2) = ((invDay z0 : ℤ) : ℚ) + s := by
  rw [fjDayFraction, fjB_eval z0 s hs0 hs1, fjD_eval z0 s hs0 hs1,
    fjE_eval z0 s hs0 hs1, fjF_eval z0 s hs0 hs1, qfloor_306001_mul, invDay]
  push_cast
  ring

theorem fjDay_eval (z0 : ℤ) (s : ℚ) (hs0 : 0 ≤ s) (hs1 : s < 1)
    (hday0 : 0 ≤ invDay z0) :
    fjDay ((z0 : ℚ) + s - 1/2) = invDay z0 := by
  rw [fjDay, fjDayFraction_eval z0 s hs0 hs1]
  exact qTrunc_int_add_fract _ s hday0 hs0 hs1

theorem fjFraction_eval (z0 : ℤ) (s : ℚ) (hs0 : 0 ≤ s) (hs1 : s < 1)
    (hday0 : 0 ≤ invDay z0) :
    fjFraction ((z0 : ℚ) + s - 1/2) = s := by
  rw [fjFraction, qFract, fjDayFraction_eval z0 s hs0 hs1,
    show qTrunc (((invDay z0 : ℤ) : ℚ) + s) = invDay z0 from
      qTrunc_int_add_fract _ s hday0 hs0 hs1]
  ring

theorem fjMonth_eval (z0 : ℤ) (s : ℚ) (hs0 : 0 ≤ s) (hs1 : s < 1)
    (hE0 : 0 ≤ invE z0) (hE20 : invE z0 ≤ 20) :
    fjMonth ((z0 : ℚ) + s - 1/2) = invMonth z0 := by
  rw [fjMonth, fjE_eval z0 s hs0 hs1, invMonth]
  rcases lt_or_le (invE z0) 14 with h | h
  · rw [if_pos (by exact_mod_cast h), if_pos h,
      show (((invE z0 : ℤ) : ℚ) - 1) = ((invE z0 - 1 : ℤ) : ℚ) by push_cast; ring,
      qToI32_intCast _ (by omega) (by omega)]
  · rw [if_neg (by exact_mod_cast not_lt.mpr h), if_neg (not_lt.mpr h),
      show (((invE z0 : ℤ) : ℚ) - 13) = ((invE z0 - 13 : ℤ) : ℚ) by push_cast; ring,
      qToI32_intCast _ (by omega) (by omega)]

theorem fjYear_eval (z0 : ℤ) (s : ℚ) (hs0 : 0 ≤ s) (hs1 : s < 1)
    (hE0 : 0 ≤ invE z0) (hE20 : invE z0 ≤ 20) :
    fjYear ((z0 : ℚ) + s - 1/2) = ((invYear z0 : ℤ) : ℚ) := by
  rw [fjYear, fjMonth_eval z0 s hs0 hs1 hE0 hE20, fjC_eval z0 s hs0 hs1, invYear]
  rcases lt_or_le 2 (invMonth z0) with h | h
  · rw [if_pos h, if_pos h]
    push_cast
    ring
  · rw [if_neg (not_lt.mpr h), if_neg (not_lt.mpr h)]
    push_cast
    ring

theorem month_fromInt_toInt (mo : Month) : Month.fromInt mo.toInt = some mo := by
  cases mo <;> rfl

/-- Closed-form evaluation of `Date::from_jd` at a JD of the shape `z0 + s − 0.5`. -/
theorem from_jd_int_eval (z0 : ℤ) (s : ℚ) (hs0 : 0 ≤ s) (hs1 : s < 1)
    (hday0 : 0 ≤ invDay z0) (hday255 : invDay z0 ≤ 255)
    (hE0 : 0 ≤ invE z0) (hE20 : invE z0 ≤ 20)
    (hyrlo : -2147483648 ≤ invYear z0) (hyrhi : invYear z0 ≤ 2147483647)
    (mo : Month) (hmo : Month.fromInt (invMonth z0) = some mo) :
    Date.from_jd ⟨(z0 : ℚ) + s - 1/2⟩ =
      some ⟨if (2299068.5 : ℚ) ≤ (z0 : ℚ) + s - 1/2 then Calendar.Gregorian
              else Calendar.Julian,
            invYear z0, mo, (invDay z0).toNat, s⟩ := by
  rw [Date.from_jd, fjMonth_eval z0 s hs0 hs1 hE0 hE20, hmo, Option.map_some']
  rw [fjYear_eval z0 s hs0 hs1 hE0 hE20, qToI32_intCast _ hyrlo hyrhi]
  rw [fjDay_eval z0 s hs0 hs1 hday0, qToU8_intCast _ hday0 hday255]
  rw [fjFraction_eval z0 s hs0 hs1 hday0]

/-! Integer-level image of the `to_jd` locals (date.rs 55-75). -/

/-- The adjusted year `y` of `Date::to_jd`. -/
def meeusY (d : Date) : ℤ :=
  match d.month with
  | .January => d.year - 1
  | .February => d.year - 1
  | _ => d.year

/-- The adjusted month `m` of `Date::to_jd`. -/
def meeusM (d : Date) : ℤ :=
  match d.month with
  | .January => d.month.toInt + 12
  | .February => d.month.toInt + 12
  | _ => d.month.toInt

/-- The Gregorian correction `b` of `Date::to_jd`. -/
def meeusB (d : Date) : ℤ :=
  match d.cal with
  | .Julian => 0
  | .Gregorian => 2 - meeusY d / 100 + meeusY d / 100 / 4

/-- The integer day number of `Date::to_jd`: the produced JD is `meeusK + fraction − 0.5`. -/
def meeusK (d : Date) : ℤ :=
  1461 * (meeusY d + 4716) / 4 + 306001 * (meeusM d + 1) / 10000
    + d.day + meeusB d - 1524

set_option maxHeartbeats 2000000 in
theorem to_jd_eval (d : Date) :
    d.to_jd = JD.fromF64 (((meeusK d : ℤ) : ℚ) + d.fraction - 1/2) := by
  obtain ⟨cal, y, mo, day, s⟩ := d
  cases cal <;> cases mo <;>
    · simp only [Date.to_jd, meeusK, meeusY, meeusM, meeusB, Month.toInt]
      simp only [qfloor_36525_year, qfloor_36525_yearm1, qfloor_year_div100,
        qfloor_yearm1_div100, qfloor_intCast_div4]
      norm_num
      congr 1
      ring

theorem ediv_eq_exact (a b q : ℤ) (hb : 0 < b) (h1 : b * q ≤ a) (h2 : a < b * (q + 1)) :
    a / b = q := by
  have h3 := Int.ediv_add_emod a b
  have h4 := Int.emod_nonneg a (ne_of_gt hb)
  have h5 := Int.emod_lt_of_pos a hb
  nlinarith [Int.ediv_add_emod a b]

/-- The common tail of the Meeus inversion: from `b` onward the computation
recovers year, month and day.  `Q` and `cc` carry the 400-year and century
components (zero in the Julian case), `Yt` the residual shifted year, `mi`
the adjusted forward month (3..14). -/
theorem meeus_tail (Q cc Yt mi day B C D E : ℤ)
    (hmi3 : 3 ≤ mi) (hmi14 : mi ≤ 14)
    (hday1 : 1 ≤ day) (hday31 : day ≤ 31)
    (hday30 : mi = 4 ∨ mi = 6 ∨ mi = 9 ∨ mi = 11 → day ≤ 30)
    (hdayfeb : mi = 14 → day ≤ 28 ∨ (day ≤ 29 ∧ Yt % 4 = 3))
    (hB : B = 146100 * Q + 36525 * cc + 1461 * Yt / 4
      + 306001 * (mi + 1) / 10000 + day)
    (hC : C = (20 * B - 2442) / 7305)
    (hD : D = 1461 * C / 4)
    (hE : E = 10000 * (B - D) / 306001) :
    C = 400 * Q + 100 * cc + Yt ∧ E = mi + 1 ∧ B - D - 306001 * E / 10000 = day := by
  have hmi : mi = 3 ∨ mi = 4 ∨ mi = 5 ∨ mi = 6 ∨ mi = 7 ∨ mi = 8 ∨ mi = 9 ∨
      mi = 10 ∨ mi = 11 ∨ mi = 12 ∨ mi = 13 ∨ mi = 14 := by omega
  rcases hmi with rfl | rfl | rfl | rfl | rfl | rfl | rfl | rfl | rfl | rfl | rfl | rfl <;>
    · have hCv : C = 400 * Q + 100 * cc + Yt := by
        rw [hC]
        exact ediv_eq_exact _ _ _ (by norm_num) (by omega) (by omega)
      have hDv : D = 146100 * Q + 36525 * cc + 1461 * Yt / 4 := by
        rw [hD, hCv]
        omega
      refine ⟨hCv, ?_, ?_⟩
      · rw [hE, hDv]
        exact ediv_eq_exact _ _ _ (by norm_num) (by omega) (by omega)
      · rw [hE, hDv]
        omega

/-- Meeus inversion, Julian branch: for a valid Julian day-number below the
Gregorian threshold, `from_jd` recovers shifted year, adjusted month and day. -/
theorem meeus_inverse_julian (Y mi day z0 : ℤ)
    (hmi3 : 3 ≤ mi) (hmi14 : mi ≤ 14)
    (hday1 : 1 ≤ day) (hday31 : day ≤ 31)
    (hday30 : mi = 4 ∨ mi = 6 ∨ mi = 9 ∨ mi = 11 → day ≤ 30)
    (hdayfeb : mi = 14 → day ≤ 28 ∨ (day ≤ 29 ∧ Y % 4 = 3))
    (hz0 : z0 = 1461 * Y / 4 + 306001 * (mi + 1) / 10000 + day - 1524)
    (hz : z0 < 2299161) :
    invC z0 = Y ∧ invE z0 = mi + 1 ∧ invDay z0 = day := by
  have hAv : invA z0 = z0 := by rw [invA, if_pos hz]
  have hB : invB z0 = 146100 * 0 + 36525 * 0 + 1461 * Y / 4
      + 306001 * (mi + 1) / 10000 + day := by
    rw [invB, hAv]
    omega
  obtain ⟨hc1, hc2, hc3⟩ := meeus_tail 0 0 Y mi day (invB z0) (invC z0) (invD z0)
    (invE z0) hmi3 hmi14 hday1 hday31 hday30 hdayfeb hB (by rw [invC]) (by rw [invD])
    (by rw [invE])
  refine ⟨by omega, hc2, ?_⟩
  rw [invDay]
  exact hc3

/-- Meeus inversion, Gregorian branch: for a valid Gregorian day-number at or
above the threshold, `from_jd` recovers shifted year, adjusted month and day. -/
theorem meeus_inverse_gregorian (Y mi day z0 : ℤ)
    (hmi3 : 3 ≤ mi) (hmi14 : mi ≤ 14)
    (hday1 : 1 ≤ day) (hday31 : day ≤ 31)
    (hday30 : mi = 4 ∨ mi = 6 ∨ mi = 9 ∨ mi = 11 → day ≤ 30)
    (hdayfeb : mi = 14 → day ≤ 28 ∨
      (day ≤ 29 ∧ ((Y % 4 = 3 ∧ Y % 100 ≠ 15) ∨ Y % 400 = 315)))
    (hz0 : z0 = 1461 * Y / 4 + 306001 * (mi + 1) / 10000 + day
      + (2 - (Y - 4716) / 100 + (Y - 4716) / 100 / 4) - 1524)
    (hz : 2299161 ≤ z0) :
    invC z0 = Y ∧ invE z0 = mi + 1 ∧ invDay z0 = day := by
  have halpha : (4 * z0 - 7468865) / 146097 = (Y - 4716) / 100 - 4 := by
    obtain ⟨Q, cc, u, w, hcc0, hcc3, hu0, hu24, hw0, hw3, rfl⟩ :
        ∃ Q cc u w, 0 ≤ cc ∧ cc ≤ 3 ∧ 0 ≤ u ∧ u ≤ 24 ∧ 0 ≤ w ∧ w ≤ 3 ∧
          Y = 400 * Q + 100 * cc + 4 * u + w + 4716 := by
      refine ⟨(Y - 4716) / 400, (Y - 4716) % 400 / 100, (Y - 4716) % 100 / 4,
        (Y - 4716) % 4, by omega, by omega, by omega, by omega, by omega, by omega,
        by omega⟩
    rcases (by omega : w = 0 ∨ w = 1 ∨ w = 2 ∨ w = 3) with rfl | rfl | rfl | rfl <;>
      exact ediv_eq_exact _ _ _ (by norm_num) (by omega) (by omega)
  have hAv : invA z0 = z0 + 1 + ((Y - 4716) / 100 - 4)
      - ((Y - 4716) / 100 - 4) / 4 := by
    rw [invA, if_neg (not_lt.mpr hz), halpha]
  have hB : invB z0 = 146100 * 0 + 36525 * 0 + 1461 * Y / 4
      + 306001 * (mi + 1) / 10000 + day := by
    rw [invB, hAv]
    omega
  have hfeb : mi = 14 → day ≤ 28 ∨ (day ≤ 29 ∧ Y % 4 = 3) := by
    intro h
    rcases hdayfeb h with h' | ⟨h1, h2⟩
    · exact Or.inl h'
    · exact Or.inr ⟨h1, by omega⟩
  obtain ⟨hc1, hc2, hc3⟩ := meeus_tail 0 0 Y mi day (invB z0) (invC z0)
    (invD z0) (invE z0) hmi3 hmi14 hday1 hday31 hday30 hfeb hB (by rw [invC])
    (by rw [invD]) (by rw [invE])
  refine ⟨by omega, hc2, ?_⟩
  rw [invDay]
  exact hc3

/-! ## Date-level validity and the corrected round-trip (claim C3) -/

/-- Month lengths under each calendar's leap-year rule (Julian: divisible by 4;
Gregorian: divisible by 4 but not 100, or by 400).  This is the domain on which
the Meeus conversion pair is mutually inverse; the code itself never validates
its input `Date`. -/
def monthLength (cal : Calendar) (y : ℤ) : Month → ℤ
  | .January => 31
  | .February =>
    match cal with
    | .Julian => if y % 4 = 0 then 29 else 28
    | .Gregorian => if (y % 4 = 0 ∧ ¬y % 100 = 0) ∨ y % 400 = 0 then 29 else 28
  | .March => 31
  | .April => 30
  | .May => 31
  | .June => 30
  | .July => 31
  | .August => 31
  | .September => 30
  | .October => 31
  | .November => 30
  | .December => 31

/-- A calendrically valid `Date`: day-of-month within the month's length,
fractional day in `[0, 1)`, year within `i32` range. -/
def ValidDate (d : Date) : Prop :=
  1 ≤ (d.day : ℤ) ∧ (d.day : ℤ) ≤ monthLength d.cal d.year d.month ∧
  0 ≤ d.fraction ∧ d.fraction < 1 ∧
  -2147483648 ≤ d.year ∧ d.year ≤ 2147483647

theorem fromF64_eq_some (x : ℚ) (j : JD) (h : JD.fromF64 x = some j) :
    0 ≤ x ∧ j.val = x := by
  rw [JD.fromF64] at h
  by_cases hx : 0 ≤ x
  · rw [if_pos hx] at h
    exact ⟨hx, by rw [← Option.some.inj h]⟩
  · rw [if_neg hx] at h
    exact absurd h (by simp)

theorem meeus_forward_hyps (d : Date) (hv : ValidDate d) :
    3 ≤ meeusM d ∧ meeusM d ≤ 14 ∧ 1 ≤ (d.day : ℤ) ∧ (d.day : ℤ) ≤ 31 ∧
      (meeusM d = 4 ∨ meeusM d = 6 ∨ meeusM d = 9 ∨ meeusM d = 11 →
        (d.day : ℤ) ≤ 30) ∧
      (d.cal = Calendar.Julian → meeusM d = 14 →
        (d.day : ℤ) ≤ 28 ∨ ((d.day : ℤ) ≤ 29 ∧ (meeusY d + 4716) % 4 = 3)) ∧
      (d.cal = Calendar.Gregorian → meeusM d = 14 →
        (d.day : ℤ) ≤ 28 ∨ ((d.day : ℤ) ≤ 29 ∧
          (((meeusY d + 4716) % 4 = 3 ∧ (meeusY d + 4716) % 100 ≠ 15) ∨
            (meeusY d + 4716) % 400 = 315))) := by
  obtain ⟨cal, y, mo, day, s⟩ := d
  obtain ⟨h1, h2, -, -, -, -⟩ := hv
  cases cal <;> cases mo <;>
    · simp only [monthLength, meeusM, meeusY, Month.toInt] at h1 h2 ⊢
      refine ⟨by norm_num, by norm_num, h1, ?_, ?_, ?_, ?_⟩ <;>
        first
          | (intro hc hm
             first
               | exact Calendar.noConfusion hc
               | (split at h2 <;> omega)
               | omega)
          | (intro hm; omega)
          | omega

theorem invMonth_eq (z0 : ℤ) (d : Date) (hE : invE z0 = meeusM d + 1) :
    invMonth z0 = d.month.toInt := by
  obtain ⟨cal, y, mo, day, s⟩ := d
  cases mo <;>
    · simp only [meeusM, Month.toInt] at hE ⊢
      rw [invMonth, hE]
      norm_num

theorem invYear_eq (z0 : ℤ) (d : Date) (hM : invMonth z0 = d.month.toInt)
    (hC : invC z0 = meeusY d + 4716) : invYear z0 = d.year := by
  obtain ⟨cal, y, mo, day, s⟩ := d
  cases mo <;>
    · simp only [meeusM, meeusY, Month.toInt] at hM hC ⊢
      rw [invYear, hM, hC]
      split <;> omega

/-- Claim C3 (amended): for every calendrically valid `Date` whose calendar tag
is consistent with `from_jd`'s output convention — Julian with resulting JD
below 2299068.5, or Gregorian with resulting JD at least 2299160.5 — the round
trip `from_jd (to_jd d)` reproduces the calendar tag, year, month, day and the
fractional day exactly (not merely within a microsecond). -/
theorem c3_amended_roundtrip (d : Date) (jd : JD) (hv : ValidDate d)
    (hjd : d.to_jd = some jd)
    (hcons : (d.cal = Calendar.Julian ∧ jd.val < 2299068.5) ∨
      (d.cal = Calendar.Gregorian ∧ 2299160.5 ≤ jd.val)) :
    Date.from_jd jd = some d := by
  rw [to_jd_eval] at hjd
  obtain ⟨hpos, hval⟩ := fromF64_eq_some _ _ hjd
  have hjdeq : jd = ⟨((meeusK d : ℤ) : ℚ) + d.fraction - 1/2⟩ := by
    rw [← hval]
  rw [hjdeq]
  rw [hval] at hcons
  obtain ⟨hm3, hm14, hd1, hd31, hd30, hfebJ, hfebG⟩ := meeus_forward_hyps d hv
  obtain ⟨-, -, hs0, hs1, hylo, hyhi⟩ := hv
  rcases hcons with ⟨hcal, hlt⟩ | ⟨hcal, hge⟩
  · have hKq : ((meeusK d : ℤ) : ℚ) < 2299069 := by linarith
    have hK : meeusK d < 2299161 := by
      have h := (by exact_mod_cast hKq : meeusK d < (2299069 : ℤ))
      omega
    have hz0 : meeusK d = 1461 * (meeusY d + 4716) / 4
        + 306001 * (meeusM d + 1) / 10000 + (d.day : ℤ) - 1524 := by
      simp only [meeusK, meeusB, hcal]
      omega
    obtain ⟨hC, hE, hDay⟩ := meeus_inverse_julian (meeusY d + 4716) (meeusM d)
      (d.day : ℤ) (meeusK d) hm3 hm14 hd1 hd31 hd30 (hfebJ hcal) hz0 hK
    have hMon : invMonth (meeusK d) = d.month.toInt := invMonth_eq _ d hE
    have hYear : invYear (meeusK d) = d.year := invYear_eq _ d hMon hC
    rw [from_jd_int_eval (meeusK d) d.fraction hs0 hs1 (by omega) (by omega)
      (by omega) (by omega) (by omega) (by omega) d.month
      (by rw [hMon]; exact month_fromInt_toInt d.month)]
    rw [if_neg (not_le.mpr hlt), hYear, hDay, Int.toNat_natCast, ← hcal]
  · have hKq : (2299160 : ℚ) < ((meeusK d : ℤ) : ℚ) := by linarith
    have hK : 2299161 ≤ meeusK d := by
      have h := (by exact_mod_cast hKq : (2299160 : ℤ) < meeusK d)
      omega
    have hz0 : meeusK d = 1461 * (meeusY d + 4716) / 4
        + 306001 * (meeusM d + 1) / 10000 + (d.day : ℤ)
        + (2 - (meeusY d + 4716 - 4716) / 100 + (meeusY d + 4716 - 4716) / 100 / 4)
        - 1524 := by
      simp only [meeusK, meeusB, hcal]
      omega
    obtain ⟨hC, hE, hDay⟩ := meeus_inverse_gregorian (meeusY d + 4716) (meeusM d)
      (d.day : ℤ) (meeusK d) hm3 hm14 hd1 hd31 hd30 (hfebG hcal) hz0 hK
    have hMon : invMonth (meeusK d) = d.month.toInt := invMonth_eq _ d hE
    have hYear : invYear (meeusK d) = d.year := invYear_eq _ d hMon hC
    rw [from_jd_int_eval (meeusK d) d.fraction hs0 hs1 (by omega) (by omega)
      (by omega) (by omega) (by omega) (by omega) d.month
      (by rw [hMon]; exact month_fromInt_toInt d.month)]
    have hcond : (2299068.5 : ℚ) ≤ ((meeusK d : ℤ) : ℚ) + d.fraction - 1/2 := by
      linarith
    rw [if_pos hcond, hYear, hDay, Int.toNat_natCast, ← hcal]

/-- Witness for the amended C3 round-trip at the valid Gregorian date
2025 October 12.0, whose JD is 2460960.5. -/
theorem c3_amended_roundtrip_witness :
    Date.from_jd ⟨(2460960.5 : ℚ)⟩ =
      some ⟨Calendar.Gregorian, 2025, Month.October, 12, 0⟩ := by
  have hv : ValidDate ⟨Calendar.Gregorian, 2025, Month.October, 12, 0⟩ := by
    norm_num [ValidDate, monthLength]
  have hjd : Date.to_jd ⟨Calendar.Gregorian, 2025, Month.October, 12, 0⟩
      = some ⟨(2460960.5 : ℚ)⟩ := by
    simp only [Date.to_jd]
    norm_num [Month.toInt, JD.fromF64]
  exact c3_amended_roundtrip _ _ hv hjd (Or.inr ⟨rfl, by norm_num⟩)
